import Mathlib

/-!
# Cardboard keyboard: marker sorting, overlay geometry and compositing

A shallow embedding of `app/src/main/jni/detection_and_drawing.cpp`.

* C++ `int` values are integers (`Int`); `std::vector<int>` is `List Int`.
* A thrown `std::out_of_range` is the result `none`.
* `double` / `float` coordinates are rationals (`ℚ`). In `drawNoteNames` every floating
  point operation is followed by its rounding (`toDouble`, `toFloat`); the chord geometry of
  `getChordLinePoints` is stated in exact arithmetic.
* An image (`cv::Mat`) is a function from a pixel position (row, column) to its value.
-/

namespace CardboardKeyboard

/-! ## Constants and enumerations (lines 13-26) -/

/-- The constant `SORTED_IDS_SIZE`, defined as 17 (line 14). -/
def SORTED_IDS_SIZE : Nat := 17

/-- The constant `KEYS_COUNT`, defined as 49 (line 19). -/
def KEYS_COUNT : Int := 49

/-- The enumeration `enum OctaveNote {C, D, E, F, G, A, H, CC}` (line 26). -/
inductive OctaveNote where
  | C | D | E | F | G | A | H | CC
deriving DecidableEq, Repr

/-- Enumerator value of an `OctaveNote` (`C` is 0, ..., `CC` is 7). -/
def OctaveNote.toNat : OctaveNote → Nat
  | .C => 0 | .D => 1 | .E => 2 | .F => 3 | .G => 4 | .A => 5 | .H => 6 | .CC => 7

/-- The cast `static_cast<OctaveNote>(i)` used by `drawChords` (line 306), for the
enumerator values `0 .. 7`; the loop there only produces `0 .. 6`. -/
def OctaveNote.ofIndex : Nat → OctaveNote
  | 0 => .C | 1 => .D | 2 => .E | 3 => .F | 4 => .G | 5 => .A | 6 => .H | _ => .CC

/-! ## `getSortedIds` (lines 48-67) -/

/-- Local variables of `getSortedIds` while it walks over `markerIds`. -/
structure SortState where
  /-- The vector `sortedIds`. -/
  sortedIds : List Int
  /-- The running detection index `i`. -/
  i : Int
  /-- The lowest marker id seen so far, `minId`. -/
  minId : Int
deriving DecidableEq, Repr

/-- The bounds-checked write `v.at(pos) = x`. The `int` argument is converted to the
unsigned `size_type`, so a negative `pos` becomes a value far above `v.size()`; `at`
throws `std::out_of_range` (here `none`) unless `0 ≤ pos < v.size()`. -/
def vectorAtPut (v : List Int) (pos : Int) (x : Int) : Option (List Int) :=
  if 0 ≤ pos ∧ pos < (v.length : Int) then some (v.set pos.toNat x) else none

/-- One pass through the body of the `for` loop (lines 56-58):
`sortedIds.at(*it) = i; ++i; if(*it < minId) minId = *it;`. -/
def sortStep (st : SortState) (id : Int) : Option SortState :=
  match vectorAtPut st.sortedIds id st.i with
  | none => none
  | some v => some ⟨v, st.i + 1, if id < st.minId then id else st.minId⟩

/-- The `for` loop over `markerIds` (lines 54-59); an exception ends it at once. -/
def sortLoop : List Int → SortState → Option SortState
  | [], st => some st
  | id :: rest, st =>
    match sortStep st id with
    | none => none
    | some st1 => sortLoop rest st1

/-- State before the loop (lines 50-52): `sortedIds(SORTED_IDS_SIZE, -1)`, `i = 0`,
`minId = SORTED_IDS_SIZE`. -/
def sortInit : SortState :=
  ⟨List.replicate SORTED_IDS_SIZE (-1), 0, (SORTED_IDS_SIZE : Int)⟩

/-- The function `getSortedIds`: run the loop, erase every `-1` (the erase-remove idiom of line 61),
then `push_back(minId)` (line 64). -/
def getSortedIds (markerIds : List Int) : Option (List Int) :=
  match sortLoop markerIds sortInit with
  | none => none
  | some st => some (st.sortedIds.filter (fun x => x ≠ -1) ++ [st.minId])

/-! ## `getOctaveNumber` (lines 88-98) -/

/-- A 32-bit two's complement `int` holding the low 32 bits of `x`. -/
def wrapInt32 (x : Int) : Int := (x + 2 ^ 31) % 2 ^ 32 - 2 ^ 31

/-- The function `getOctaveNumber`: the `switch` over `keysCount`. C++ integer division truncates
toward zero (`Int.tdiv`). -/
def getOctaveNumber (id keysCount : Int) : Int :=
  if keysCount = 49 ∨ keysCount = 61 ∨ keysCount = 76 then
    Int.tdiv (wrapInt32 (id + 3)) 2
  else if keysCount = 88 then
    Int.tdiv (wrapInt32 (id + 1)) 2
  else
    Int.tdiv (wrapInt32 (id + 3)) 2

/-! ## `drawNoteNames` (lines 37-42, 103-120) -/

/-- A 2D point with `float` coordinates (`cv::Point2f`); a coordinate is the rational
value of the `float`. -/
structure Point2f where
  x : ℚ
  y : ℚ
deriving DecidableEq

/-- One call of `putText`: the text drawn and the `notePosition` passed as its origin. -/
structure PutText where
  text : String
  org : Point2f
deriving DecidableEq

/-- Rounding of a rational to the nearest integer, ties to the even one. -/
def roundHalfEven (m : ℚ) : ℤ :=
  if m - (⌊m⌋ : ℚ) < 1 / 2 then ⌊m⌋
  else if 1 / 2 < m - (⌊m⌋ : ℚ) then ⌊m⌋ + 1
  else if ⌊m⌋ % 2 = 0 then ⌊m⌋ else ⌊m⌋ + 1

/-- Rounding to the nearest binary floating point number with a significand of `p` bits,
ties to even (the default IEEE 754 rounding). With `2 ^ e ≤ |q| < 2 ^ (e + 1)` the result
is the multiple of `2 ^ (e - (p - 1))` nearest to `q`. The exponent range is unbounded:
overflow and subnormal numbers do not occur for the values of `drawNoteNames`, which are
`0` or lie between `1 / 8` and `2 ^ 35`. -/
def roundBinary (p : Nat) (q : ℚ) : ℚ :=
  if q = 0 then 0
  else (roundHalfEven (q / (2 : ℚ) ^ (Int.log 2 |q| - ((p : Int) - 1))) : ℚ)
        * (2 : ℚ) ^ (Int.log 2 |q| - ((p : Int) - 1))

/-- Conversion to `float` (binary32, 24-bit significand). -/
def toFloat (q : ℚ) : ℚ := roundBinary 24 q

/-- Result of a `double` operation (binary64, 53-bit significand). -/
def toDouble (q : ℚ) : ℚ := roundBinary 53 q

/-- The function `intToString`: the text an `ostringstream` produces for an `int`. -/
def intToString (num : Int) : String := toString num

/-- Reference for the claim's words "numbers in decimal", natural numbers: `"0"` for zero,
otherwise the base-10 digits, most significant first, as the characters `'0'` (code 48)
to `'9'`. The output of `intToString` is compared with it. -/
def decimalNat (n : Nat) : String :=
  if n = 0 then "0"
  else String.mk ((Nat.digits 10 n).reverse.map (fun d => Char.ofNat (48 + d)))

/-- Reference for the claim's words "numbers in decimal", integers: a minus sign before
the decimal numeral of the absolute value of a negative number. -/
def decimalText (n : Int) : String :=
  if n < 0 then "-" ++ decimalNat n.natAbs else decimalNat n.natAbs

/-- Local variables of the loop of `drawNoteNames`: the `putText` calls made so far,
`notePosition` and `octaveNumber`. -/
structure NoteState where
  calls : List PutText
  notePosition : Point2f
  octaveNumber : Int

/-- Body of the loop `for(auto c : notes)` (lines 115-118):
`putText(overlay, c + intToString(octaveNumber), notePosition, ...)`;
`notePosition.x += horizontalEighth`, a `double` sum stored into a `float`;
`if(c == 'H') ++octaveNumber`, an increment of a 32-bit `int`. -/
def noteStep (horizontalEighth : ℚ) (st : NoteState) (c : Char) : NoteState :=
  ⟨st.calls ++ [⟨c.toString ++ intToString st.octaveNumber, st.notePosition⟩],
   ⟨toFloat (toDouble (st.notePosition.x + horizontalEighth)), st.notePosition.y⟩,
   if c = 'H' then wrapInt32 (st.octaveNumber + 1) else st.octaveNumber⟩

/-- The function `drawNoteNames` on an overlay of `cols` by `rows` pixels: the sequence of
`putText` calls. `overlay.cols / 8` and `overlay.rows / 8` are integer divisions of
non-negative `int`s, converted to `double`; `horizontalEighth / 8` and
`overlay.rows - verticalEighth` are `double` operations whose results `Point2f(...)`
converts to `float`. -/
def drawNoteNames (cols rows : Nat) (octaveNumber : Int) : List PutText :=
  let horizontalEighth : ℚ := toDouble ((cols / 8 : Nat) : ℚ)
  let verticalEighth : ℚ := toDouble ((rows / 8 : Nat) : ℚ)
  let notePosition : Point2f :=
    ⟨toFloat (toDouble (horizontalEighth / 8)), toFloat (toDouble ((rows : ℚ) - verticalEighth))⟩
  let notes : List Char := "CDEFGAHC".toList
  (notes.foldl (noteStep horizontalEighth) ⟨[], notePosition, octaveNumber⟩).calls

/-! ## `getXCoordOfNote` and `getChordLinePoints` (lines 125-280) -/

/-- The structure `ChordLinesPoints`: two arrays of three points. -/
structure ChordLinesPoints where
  lineStarts : Fin 3 → Point2f
  lineEnds : Fin 3 → Point2f

/-- The function `getXCoordOfNote`: the `switch` over `note`. -/
def getXCoordOfNote (note : OctaveNote) (horizontalEighth : ℚ) : ℚ :=
  match note with
  | .C => 0
  | .D => horizontalEighth
  | .E => horizontalEighth * 2
  | .F => horizontalEighth * 3
  | .G => horizontalEighth * 4
  | .A => horizontalEighth * 5
  | .H => horizontalEighth * 6
  | .CC => horizontalEighth * 7

/-- The block repeated three times in every `case` of `getChordLinePoints`, with
`point.y` already set to `y`:
`point.x = getXCoordOfNote(note, h); lineStarts[j] = point; point.x += h; lineEnds[j] = point;`.
Returns the start and the end point. -/
def chordLine (y : ℚ) (note : OctaveNote) (horizontalEighth : ℚ) : Point2f × Point2f :=
  let start : Point2f := ⟨getXCoordOfNote note horizontalEighth, y⟩
  (start, ⟨start.x + horizontalEighth, y⟩)

/-- One `case` of `getChordLinePoints`: `point.y = y`, then the three blocks for the
notes `n0`, `n1`, `n2`. -/
def chordLines (y : ℚ) (n0 n1 n2 : OctaveNote) (horizontalEighth : ℚ) : ChordLinesPoints :=
  ⟨![(chordLine y n0 horizontalEighth).1, (chordLine y n1 horizontalEighth).1,
      (chordLine y n2 horizontalEighth).1],
   ![(chordLine y n0 horizontalEighth).2, (chordLine y n1 horizontalEighth).2,
      (chordLine y n2 horizontalEighth).2]⟩

/-- The function `getChordLinePoints`: the `switch` over `chord`. In the `default` branch the
structure keeps its default-constructed points `(0, 0)`. -/
def getChordLinePoints (chord : OctaveNote) (horizontalEighth verticalEighth : ℚ) :
    ChordLinesPoints :=
  match chord with
  | .C => chordLines (verticalEighth * 5.5) .C .E .G horizontalEighth
  | .D => chordLines (verticalEighth * 5.6) .D .F .A horizontalEighth
  | .E => chordLines (verticalEighth * 5.7) .E .G .H horizontalEighth
  | .F => chordLines (verticalEighth * 5.8) .F .A .CC horizontalEighth
  | .G => chordLines (verticalEighth * 5.9) .G .H .D horizontalEighth
  | .A => chordLines (verticalEighth * 6.0) .A .E .CC horizontalEighth
  | .H => chordLines (verticalEighth * 6.1) .H .F .D horizontalEighth
  | .CC => ⟨fun _ => ⟨0, 0⟩, fun _ => ⟨0, 0⟩⟩

/-! ## The octave loop of `draw` and the entry point (lines 340-360, 419-426) -/

/-- Values taken by `i` in `for(unsigned int i = 0; i < (sortedIds.size() - 3); i += 2)`.
For `size < 3` the unsigned subtraction wraps around; that case is left out (`none`),
the entry point only calls `draw` with `size ≥ 5`. -/
def drawLoopIndices (size : Nat) : Option (List Nat) :=
  if size < 3 then none
  else some ((List.range (size - 3)).filter (fun i => i % 2 = 0))

/-- The four entries `sortedIds[i]`, `sortedIds[i+1]`, `sortedIds[i+2]`, `sortedIds[i+3]`
that one iteration uses as indices into `markerCorners` (lines 357-360); `none` is a read
past the end of `sortedIds`. -/
def octaveMarkerReads (sortedIds : List Int) (i : Nat) : List (Option Int) :=
  [sortedIds[i]?, sortedIds[i + 1]?, sortedIds[i + 2]?, sortedIds[i + 3]?]

/-- All `markerCorners` indices used by `draw`, iteration by iteration, when no
homography is empty (an empty one ends the loop early, line 366). -/
def drawMarkerReads (sortedIds : List Int) : Option (List (List (Option Int))) :=
  match drawLoopIndices sortedIds.length with
  | none => none
  | some idx => some (idx.map (octaveMarkerReads sortedIds))

/-- The entry point `detectMarkersAndDraw` after detection (lines 420-426): `draw` is
called on `getSortedIds(markerIds)` only if more than three markers were detected. The
result lists the `markerCorners` indices used; `none` is an escaping exception. -/
def detectMarkersAndDrawReads (markerIds : List Int) : Option (List (List (Option Int))) :=
  if 3 < markerIds.length then
    match getSortedIds markerIds with
    | none => none
    | some s => drawMarkerReads s
  else some []

/-! ## Compositing in `draw` (lines 371-390) -/

/-- A pixel of a `CV_8UC4` image: four 8-bit channels. -/
structure Pixel where
  c0 : Fin 256
  c1 : Fin 256
  c2 : Fin 256
  c3 : Fin 256
deriving DecidableEq

/-- The all-zero pixel of a freshly allocated, zero-initialised matrix. -/
def Pixel.zero : Pixel := ⟨0, 0, 0, 0⟩

/-- A four-channel image. -/
abbrev Image := Nat → Nat → Pixel

/-- A single-channel 8-bit image. -/
abbrev GrayImage := Nat → Nat → Fin 256

/-- Modelled from the spec: `cv::cvtColor(src, dst, CV_BGR2GRAY)` is a routine of the
external vision library; it maps every pixel to one grey value, by a conversion `gray`
that is left open. -/
def cvtColor (gray : Pixel → Fin 256) (src : Image) : GrayImage :=
  fun r c => gray (src r c)

/-- Modelled from the spec: `cv::threshold(src, dst, thresh, maxval, CV_THRESH_BINARY)`
of the external vision library builds the binary mask: `maxval` where the value is
greater than `thresh`, `0` elsewhere. -/
def threshold (src : GrayImage) (thresh maxval : Fin 256) : GrayImage :=
  fun r c => if thresh < src r c then maxval else 0

/-- Inversion of every bit of an 8-bit value: `x ↦ 255 - x`. -/
def invertByte (x : Fin 256) : Fin 256 := ⟨255 - x.val, by omega⟩

/-- Modelled from the spec: `cv::bitwise_not` of the external vision library inverts
every bit of every element of an 8-bit image. -/
def bitwise_not (src : GrayImage) : GrayImage :=
  fun r c => invertByte (src r c)

/-- Modelled from the spec: `src.copyTo(dst, mask)` of the external vision library, for
a destination that is allocated by the call: it starts out all zero and receives the
pixels of `src` where the mask is non-zero. -/
def copyToFresh (src : Image) (mask : GrayImage) : Image :=
  fun r c => if mask r c ≠ 0 then src r c else Pixel.zero

/-- Saturating addition of two 8-bit channel values. -/
def saturateAdd (a b : Fin 256) : Fin 256 :=
  ⟨min (a.val + b.val) 255, by omega⟩

/-- Modelled from the spec: the matrix sum `a + b` of the external vision library adds
8-bit images channel by channel with saturation. -/
def matAdd (a b : Image) : Image :=
  fun r c => ⟨saturateAdd (a r c).c0 (b r c).c0, saturateAdd (a r c).c1 (b r c).c1,
              saturateAdd (a r c).c2 (b r c).c2, saturateAdd (a r c).c3 (b r c).c3⟩

/-- The images computed by lines 375-390 of `draw` in the first loop iteration. -/
structure Composite where
  mask : GrayImage
  maskInv : GrayImage
  result1 : Image
  result2 : Image
  mRgb : Image

/-- Lines 375-390 of `draw`, from the camera image `mRgb` and the warped overlay, with
`result1` and `result2` not yet allocated:
`cvtColor; threshold(mask, mask, 0, 255, ...); bitwise_not; copyTo; copyTo; mRgb = result1 + result2`. -/
def compositeOctave (gray : Pixel → Fin 256) (mRgb overlayWarped : Image) : Composite :=
  let mask0 := cvtColor gray overlayWarped
  let mask := threshold mask0 0 255
  let maskInv := bitwise_not mask
  let result1 := copyToFresh mRgb maskInv
  let result2 := copyToFresh overlayWarped mask
  ⟨mask, maskInv, result1, result2, matAdd result1 result2⟩

/-! ## Proof vocabulary -/

/-- Invariant of the loop of `getSortedIds` after the ids `l` have been processed. -/
structure LoopInv (l : List Int) (st : SortState) : Prop where
  len : st.sortedIds.length = SORTED_IDS_SIZE
  idx : st.i = (l.length : Int)
  absent : ∀ m : Nat, m < SORTED_IDS_SIZE → (m : Int) ∉ l → st.sortedIds[m]? = some (-1)
  present : ∀ (j m : Nat), l[j]? = some (m : Int) →
    (∀ j2 : Nat, j < j2 → l[j2]? ≠ some (m : Int)) → st.sortedIds[m]? = some (j : Int)
  minLe : ∀ x ∈ l, st.minId ≤ x
  minMem : st.minId ∈ l ∨ (l = [] ∧ st.minId = (SORTED_IDS_SIZE : Int))

/-- The marker ids `0 .. SORTED_IDS_SIZE - 1` that occur in the input, ascending. -/
def presentIds (ids : List Int) : List Nat :=
  (List.range SORTED_IDS_SIZE).filter (fun m => decide ((m : Int) ∈ ids))


/-! ## Lemmas on the loop of `getSortedIds` -/

theorem sortLoop_snoc (l : List Int) (a : Int) (st : SortState) :
    sortLoop (l ++ [a]) st = (sortLoop l st).bind (fun s => sortStep s a) := by
  induction l generalizing st with
  | nil =>
    simp only [List.nil_append, sortLoop, Option.some_bind]
    cases sortStep st a <;> rfl
  | cons b l ih =>
    simp only [List.cons_append, sortLoop]
    cases sortStep st b with
    | none => rfl
    | some s1 => exact ih s1

theorem loopInv_init : LoopInv [] sortInit := by
  refine ⟨by simp [sortInit], by simp [sortInit], ?_, ?_, ?_, Or.inr ⟨rfl, rfl⟩⟩
  · intro m hm _
    simp [sortInit, List.getElem?_replicate, hm]
  · intro j m h; simp at h
  · intro x hx; simp at hx

theorem loopInv_step (l : List Int) (a : Int) (st : SortState) (h : LoopInv l st)
    (ha : 0 ≤ a ∧ a < (SORTED_IDS_SIZE : Int)) :
    ∃ st2, sortStep st a = some st2 ∧ LoopInv (l ++ [a]) st2 := by
  have hlen := h.len
  have hin : 0 ≤ a ∧ a < (st.sortedIds.length : Int) := by rw [hlen]; exact ha
  refine ⟨⟨st.sortedIds.set a.toNat st.i, st.i + 1, if a < st.minId then a else st.minId⟩, ?_, ?_⟩
  · simp [sortStep, vectorAtPut, hin]
  · have hat : (a.toNat : Int) = a := Int.toNat_of_nonneg ha.1
    have hatlt : a.toNat < st.sortedIds.length := by omega
    constructor
    · simp [hlen]
    · simp [h.idx]
    · intro m hm hnot
      simp only [List.mem_append, List.mem_singleton, not_or] at hnot
      have hne : a.toNat ≠ m := by
        intro e; apply hnot.2; rw [← hat, e]
      simp only []
      rw [List.getElem?_set_ne hne]
      exact h.absent m hm hnot.1
    · intro j m hj hlast
      simp only []
      rcases Nat.lt_or_ge j l.length with hjl | hjl
      · have hj1 : l[j]? = some (m : Int) := by
          rw [List.getElem?_append_left hjl] at hj; exact hj
        have hma : (m : Int) ≠ a := by
          intro e
          apply hlast l.length hjl
          simp [e]
        have hne : a.toNat ≠ m := by
          intro e; apply hma; rw [← hat, e]
        rw [List.getElem?_set_ne hne]
        apply h.present j m hj1
        intro j2 hj2 hcontra
        apply hlast j2 hj2
        have hj2l : j2 < l.length := by
          by_contra hge
          rw [List.getElem?_eq_none (by omega)] at hcontra
          exact Option.noConfusion hcontra
        rw [List.getElem?_append_left hj2l]; exact hcontra
      · have hjeq : j = l.length := by
          by_contra hne
          rw [List.getElem?_eq_none (by simp; omega)] at hj
          exact Option.noConfusion hj
        subst hjeq
        simp at hj
        have hm : a.toNat = m := by omega
        subst hm
        rw [List.getElem?_set_self hatlt, h.idx]
    · intro x hx
      simp only [List.mem_append, List.mem_singleton] at hx
      simp only []
      rcases hx with hx | hx
      · have := h.minLe x hx
        split <;> omega
      · subst hx; split <;> omega
    · left
      simp only [List.mem_append, List.mem_singleton]
      split
      · right; trivial
      · rcases h.minMem with hm | ⟨_, hm⟩
        · left; exact hm
        · exfalso; omega

theorem sortLoop_inv (l : List Int) (hl : ∀ x ∈ l, 0 ≤ x ∧ x < (SORTED_IDS_SIZE : Int)) :
    ∃ st, sortLoop l sortInit = some st ∧ LoopInv l st := by
  induction l using List.reverseRecOn with
  | nil => exact ⟨sortInit, rfl, loopInv_init⟩
  | append_singleton l a ih =>
    obtain ⟨st, hst, hinv⟩ := ih (fun x hx => hl x (by simp [hx]))
    obtain ⟨st2, hst2, hinv2⟩ := loopInv_step l a st hinv (hl a (by simp))
    exact ⟨st2, by rw [sortLoop_snoc, hst]; exact hst2, hinv2⟩


theorem exists_last_occurrence (l : List Int) (x : Int) (hx : x ∈ l) :
    ∃ j : Nat, l[j]? = some x ∧ ∀ j2 : Nat, j < j2 → l[j2]? ≠ some x := by
  induction l with
  | nil => simp at hx
  | cons a l ih =>
    by_cases hmem : x ∈ l
    · obtain ⟨j, hj, hlast⟩ := ih hmem
      refine ⟨j + 1, by simpa using hj, ?_⟩
      intro j2 hj2
      obtain ⟨k, rfl⟩ : ∃ k, j2 = k + 1 := ⟨j2 - 1, by omega⟩
      simpa using hlast k (by omega)
    · have hxa : x = a := by
        rcases List.mem_cons.1 hx with h | h
        · exact h
        · exact absurd h hmem
      subst hxa
      refine ⟨0, by simp, ?_⟩
      intro j2 hj2
      obtain ⟨k, rfl⟩ : ∃ k, j2 = k + 1 := ⟨j2 - 1, by omega⟩
      intro hcontra
      apply hmem
      have : l[k]? = some x := by simpa using hcontra
      exact List.getElem?_mem this

theorem loopInv_slot_ne (ids : List Int) (st : SortState) (h : LoopInv ids st) (m : Nat)
    (hm : m < SORTED_IDS_SIZE) :
    ((st.sortedIds[m]?).getD (-1) ≠ -1) ↔ (m : Int) ∈ ids := by
  constructor
  · intro hne
    by_contra hnot
    apply hne
    simp [h.absent m hm hnot]
  · intro hmem
    obtain ⟨j, hj, hlast⟩ := exists_last_occurrence ids _ hmem
    have := h.present j m hj hlast
    simp only [this, Option.getD_some]
    omega

theorem loopInv_filter (ids : List Int) (st : SortState) (h : LoopInv ids st) :
    st.sortedIds.filter (fun x => x ≠ -1)
      = (presentIds ids).map (fun m => (st.sortedIds[m]?).getD (-1)) := by
  have hv : st.sortedIds = (List.range SORTED_IDS_SIZE).map (fun m => (st.sortedIds[m]?).getD (-1)) := by
    apply List.ext_getElem?
    intro k
    rcases Nat.lt_or_ge k SORTED_IDS_SIZE with hk | hk
    · have hk2 : k < st.sortedIds.length := by rw [h.len]; exact hk
      simp [List.getElem?_range hk, List.getElem?_eq_getElem hk2]
    · rw [List.getElem?_eq_none (by rw [h.len]; exact hk),
        List.getElem?_eq_none (by simpa using hk)]
  conv_lhs => rw [hv]
  rw [List.filter_map, presentIds]
  congr 1
  apply List.filter_congr
  intro m hm
  have hm2 : m < SORTED_IDS_SIZE := List.mem_range.1 hm
  have := loopInv_slot_ne ids st h m hm2
  by_cases hmem : (m : Int) ∈ ids
  · simp [hmem, this.2 hmem]
  · have h1 : (st.sortedIds[m]?).getD (-1) = -1 := by
      by_contra hne; exact hmem (this.1 hne)
    simp [hmem, h1]

theorem getSortedIds_eq (ids : List Int) (hl : ∀ x ∈ ids, 0 ≤ x ∧ x < (SORTED_IDS_SIZE : Int)) :
    ∃ st, LoopInv ids st ∧
      getSortedIds ids
        = some ((presentIds ids).map (fun m => (st.sortedIds[m]?).getD (-1)) ++ [st.minId]) := by
  obtain ⟨st, hst, hinv⟩ := sortLoop_inv ids hl
  refine ⟨st, hinv, ?_⟩
  simp only [getSortedIds, hst]
  rw [loopInv_filter ids st hinv]

theorem presentIds_index (P : Nat → Bool) (n m : Nat) (hm : m < n) (hP : P m = true) :
    ((List.range n).filter P)[((List.range m).filter P).length]? = some m := by
  induction n with
  | zero => omega
  | succ n ih =>
    rw [List.range_succ, List.filter_append]
    rcases Nat.lt_or_ge m n with h | h
    · have := ih h
      have hlt : ((List.range m).filter P).length < ((List.range n).filter P).length := by
        by_contra hge
        rw [List.getElem?_eq_none (by omega)] at this
        exact Option.noConfusion this
      rw [List.getElem?_append_left hlt]; exact this
    · have hmn : m = n := by omega
      subst hmn
      rw [List.getElem?_append_right (le_refl _)]
      simp [hP]

theorem presentIds_sorted (ids : List Int) (hl : ∀ x ∈ ids, 0 ≤ x ∧ x < (SORTED_IDS_SIZE : Int))
    (hd : ids.Nodup) :
    (presentIds ids).map (fun m : Nat => (m : Int)) = ids.insertionSort (fun a b => a ≤ b) := by
  have hinj : Function.Injective (fun m : Nat => (m : Int)) := fun a b h => by simpa using h
  have hnd : ((presentIds ids).map (fun m : Nat => (m : Int))).Nodup :=
    List.Nodup.map hinj (List.Nodup.filter _ (List.nodup_range _))
  have hsorted : ((presentIds ids).map (fun m : Nat => (m : Int))).Sorted (fun a b => a ≤ b) := by
    have h1 : (presentIds ids).Sorted (fun a b => a < b) :=
      List.Sorted.filter _ (List.sorted_lt_range _)
    have h2 : ((presentIds ids).map (fun m : Nat => (m : Int))).Sorted (fun a b => a < b) := by
      rw [List.Sorted, List.pairwise_map]
      exact List.Pairwise.imp (fun h => by exact_mod_cast h) h1
    exact List.Pairwise.imp (fun h => le_of_lt h) h2
  have hperm : ((presentIds ids).map (fun m : Nat => (m : Int))).Perm ids := by
    rw [List.perm_ext_iff_of_nodup hnd hd]
    intro a
    simp only [presentIds, List.mem_map, List.mem_filter, List.mem_range, decide_eq_true_eq]
    constructor
    · rintro ⟨m, ⟨_, hm⟩, rfl⟩; exact hm
    · intro ha
      obtain ⟨h0, h1⟩ := hl a ha
      refine ⟨a.toNat, ⟨by omega, ?_⟩, ?_⟩
      · rw [Int.toNat_of_nonneg h0]; exact ha
      · exact Int.toNat_of_nonneg h0
  exact List.eq_of_perm_of_sorted (hperm.trans (List.perm_insertionSort _ ids).symm) hsorted
    (List.sorted_insertionSort _ ids)


theorem sortStep_some (st st2 : SortState) (a : Int) (h : sortStep st a = some st2) :
    (0 ≤ a ∧ a < (st.sortedIds.length : Int)) ∧ st2.sortedIds.length = st.sortedIds.length := by
  unfold sortStep vectorAtPut at h
  by_cases hg : 0 ≤ a ∧ a < (st.sortedIds.length : Int)
  · rw [if_pos hg] at h
    simp only [Option.some.injEq] at h
    subst h
    exact ⟨hg, by simp⟩
  · rw [if_neg hg] at h
    exact Option.noConfusion h

theorem sortLoop_some (l : List Int) (st st2 : SortState) (h : sortLoop l st = some st2) :
    ∀ x ∈ l, 0 ≤ x ∧ x < (st.sortedIds.length : Int) := by
  induction l generalizing st with
  | nil => intro x hx; simp at hx
  | cons a l ih =>
    simp only [sortLoop] at h
    cases hs : sortStep st a with
    | none => rw [hs] at h; exact Option.noConfusion h
    | some s1 =>
      rw [hs] at h
      obtain ⟨hr, hlen⟩ := sortStep_some st s1 a hs
      intro x hx
      rcases List.mem_cons.1 hx with hx | hx
      · subst hx; exact hr
      · have := ih s1 h x hx
        rw [hlen] at this; exact this

theorem getSortedIds_isSome_iff (ids : List Int) :
    (∃ s, getSortedIds ids = some s) ↔ ∀ x ∈ ids, 0 ≤ x ∧ x < (17 : Int) := by
  constructor
  · rintro ⟨s, hs⟩
    unfold getSortedIds at hs
    cases hl : sortLoop ids sortInit with
    | none => rw [hl] at hs; exact Option.noConfusion hs
    | some st =>
      have := sortLoop_some ids sortInit st hl
      simpa [sortInit, SORTED_IDS_SIZE] using this
  · intro h
    obtain ⟨st, _, hst⟩ := getSortedIds_eq ids (by simpa [SORTED_IDS_SIZE] using h)
    exact ⟨_, hst⟩

/-! ## The claims -/

/-- C1: for pairwise-distinct marker ids, each in `0 .. 16`, `getSortedIds` returns a
vector of length `n + 1`, and for every `k < n` its entry `k` is the position in the
input list of the `k`-th smallest id. -/
theorem getSortedIds_positions_by_ascending_id (ids : List Int)
    (hrange : ∀ x ∈ ids, 0 ≤ x ∧ x < (17 : Int)) (hd : ids.Nodup) :
    ∃ s, getSortedIds ids = some s ∧ s.length = ids.length + 1 ∧
      ∀ k : Nat, k < ids.length →
        ∃ j : Nat, j < ids.length ∧ s[k]? = some (j : Int) ∧
          ids[j]? = (ids.insertionSort (fun a b => a ≤ b))[k]? := by
  have hrange2 : ∀ x ∈ ids, 0 ≤ x ∧ x < (SORTED_IDS_SIZE : Int) := by
    simpa [SORTED_IDS_SIZE] using hrange
  obtain ⟨st, hinv, hst⟩ := getSortedIds_eq ids hrange2
  have hsorted := presentIds_sorted ids hrange2 hd
  have hlen : (presentIds ids).length = ids.length := by
    have := congrArg List.length hsorted
    simpa using this
  refine ⟨_, hst, by simp [hlen], ?_⟩
  intro k hk
  have hkF : k < (presentIds ids).length := by omega
  have hmemF : (presentIds ids)[k] ∈ presentIds ids := List.getElem_mem hkF
  have hmem : (((presentIds ids)[k] : Nat) : Int) ∈ ids := by
    have := (List.mem_filter.1 hmemF).2
    simpa using this
  obtain ⟨j, hj, hlast⟩ := exists_last_occurrence ids _ hmem
  have hslot := hinv.present j _ hj hlast
  have hjlt : j < ids.length := by
    by_contra hge
    rw [List.getElem?_eq_none (by omega)] at hj
    exact Option.noConfusion hj
  refine ⟨j, hjlt, ?_, ?_⟩
  · rw [List.getElem?_append_left (by simpa using hkF)]
    simp [List.getElem?_eq_getElem hkF, hslot]
  · rw [hj, ← hsorted]
    simp [List.getElem?_eq_getElem hkF]

/-- C1, at the input `[4, 0, 7, 2]`. -/
theorem getSortedIds_positions_by_ascending_id_witness :
    (∀ x ∈ ([4, 0, 7, 2] : List Int), 0 ≤ x ∧ x < (17 : Int)) ∧
    ([4, 0, 7, 2] : List Int).Nodup ∧
    ∃ s, getSortedIds [4, 0, 7, 2] = some s ∧ s.length = ([4, 0, 7, 2] : List Int).length + 1 ∧
      ∀ k : Nat, k < ([4, 0, 7, 2] : List Int).length →
        ∃ j : Nat, j < ([4, 0, 7, 2] : List Int).length ∧ s[k]? = some (j : Int) ∧
          ([4, 0, 7, 2] : List Int)[j]?
            = (([4, 0, 7, 2] : List Int).insertionSort (fun a b => a ≤ b))[k]? :=
  ⟨by decide, by decide, getSortedIds_positions_by_ascending_id [4, 0, 7, 2] (by decide) (by decide)⟩

/-- C2: for a non-empty list of marker ids, each in `0 .. 16`, the last element of the
vector returned by `getSortedIds` is the minimum of the list: it occurs in the list and
no id of the list is smaller. -/
theorem getSortedIds_last_is_minimum (ids : List Int) (hne : ids ≠ [])
    (hrange : ∀ x ∈ ids, 0 ≤ x ∧ x < (17 : Int)) :
    ∃ s m, getSortedIds ids = some s ∧ s.getLast? = some m ∧ m ∈ ids ∧ ∀ x ∈ ids, m ≤ x := by
  obtain ⟨st, hinv, hst⟩ := getSortedIds_eq ids (by simpa [SORTED_IDS_SIZE] using hrange)
  refine ⟨_, st.minId, hst, by simp, ?_, hinv.minLe⟩
  rcases hinv.minMem with h | ⟨h, _⟩
  · exact h
  · exact absurd h hne

/-- C2, at the input `[4, 0, 7, 2]`. -/
theorem getSortedIds_last_is_minimum_witness :
    ([4, 0, 7, 2] : List Int) ≠ [] ∧ (∀ x ∈ ([4, 0, 7, 2] : List Int), 0 ≤ x ∧ x < (17 : Int)) ∧
    ∃ s m, getSortedIds [4, 0, 7, 2] = some s ∧ s.getLast? = some m ∧
      m ∈ ([4, 0, 7, 2] : List Int) ∧ ∀ x ∈ ([4, 0, 7, 2] : List Int), m ≤ x :=
  ⟨by decide, by decide, getSortedIds_last_is_minimum [4, 0, 7, 2] (by decide) (by decide)⟩

/-- C3 as stated fails: for the single detection `[4]` the result is `[0, 4]`, which has
no index 4 (the position 0 of marker 4 sits at index 0); and for `[0, 0]` the result is
`[1, 0]`, so index 0 holds 1 although marker 0 was also detected at position 0. -/
theorem getSortedIds_value_at_id_counterexample :
    (getSortedIds [4] = some [0, 4] ∧ ([4] : List Int)[0]? = some 4 ∧
      ([0, 4] : List Int)[4]? ≠ some 0) ∧
    (getSortedIds [0, 0] = some [1, 0] ∧ ([0, 0] : List Int)[0]? = some 0 ∧
      ([1, 0] : List Int)[0]? ≠ some 0) := by
  decide

/-- C3, amended: for marker ids each in `0 .. 16`, if `j` is the last detection position
of marker id `m`, the vector returned by `getSortedIds` has the value `j` at the index
that counts the ids smaller than `m` occurring in the list. -/
theorem getSortedIds_value_at_rank (ids : List Int)
    (hrange : ∀ x ∈ ids, 0 ≤ x ∧ x < (17 : Int)) (j : Nat) (m : Int)
    (hj : ids[j]? = some m) (hlast : ∀ j2 : Nat, j < j2 → ids[j2]? ≠ some m) :
    ∃ s, getSortedIds ids = some s ∧
      s[(List.range m.toNat).countP (fun x : Nat => decide ((x : Int) ∈ ids))]? = some (j : Int) := by
  obtain ⟨st, hinv, hst⟩ := getSortedIds_eq ids (by simpa [SORTED_IDS_SIZE] using hrange)
  refine ⟨_, hst, ?_⟩
  have hmem : m ∈ ids := List.getElem?_mem hj
  obtain ⟨h0, h1⟩ := hrange m hmem
  have hcast : ((m.toNat : Nat) : Int) = m := Int.toNat_of_nonneg h0
  have hlt : m.toNat < SORTED_IDS_SIZE := by simp only [SORTED_IDS_SIZE]; omega
  have hidx := presentIds_index (fun x : Nat => decide ((x : Int) ∈ ids)) SORTED_IDS_SIZE m.toNat hlt
    (by simpa [hcast] using hmem)
  rw [List.countP_eq_length_filter]
  have hslot : st.sortedIds[m.toNat]? = some (j : Int) :=
    hinv.present j m.toNat (by rw [hcast]; exact hj) (by rw [hcast]; exact hlast)
  have hbound : ((List.range m.toNat).filter (fun x : Nat => decide ((x : Int) ∈ ids))).length
      < (presentIds ids).length := by
    by_contra hge
    rw [List.getElem?_eq_none (by simpa [presentIds] using hge)] at hidx
    exact Option.noConfusion hidx
  rw [List.getElem?_append_left (by simpa using hbound), List.getElem?_map]
  simp only [presentIds]
  rw [hidx]
  simp [hslot]

/-- C3 amended, at the input `[4, 0, 7, 2]`, marker 4 detected at position 0. -/
theorem getSortedIds_value_at_rank_witness :
    (∀ x ∈ ([4, 0, 7, 2] : List Int), 0 ≤ x ∧ x < (17 : Int)) ∧
    ([4, 0, 7, 2] : List Int)[0]? = some 4 ∧
    (∀ j2 : Nat, 0 < j2 → ([4, 0, 7, 2] : List Int)[j2]? ≠ some 4) ∧
    ∃ s, getSortedIds [4, 0, 7, 2] = some s ∧
      s[(List.range (4 : Int).toNat).countP
          (fun x : Nat => decide ((x : Int) ∈ ([4, 0, 7, 2] : List Int)))]? = some ((0 : Nat) : Int) :=
  have hlast : ∀ j2 : Nat, 0 < j2 → ([4, 0, 7, 2] : List Int)[j2]? ≠ some 4 := by
    intro j2 hj2
    match j2, hj2 with
    | 1, _ => decide
    | 2, _ => decide
    | 3, _ => decide
    | (k + 4), _ => simp
  ⟨by decide, by decide, hlast, getSortedIds_value_at_rank [4, 0, 7, 2] (by decide) 0 4 (by decide) hlast⟩

/-- C9: `getSortedIds` returns a result exactly when every marker id lies in `0 .. 16`;
an id that is negative or at least 17 makes the bounds-checked write fail, so no result
is returned, in particular for the ids `17 .. 49` of the 50-symbol dictionary. -/
theorem getSortedIds_result_iff_ids_in_range (ids : List Int) :
    ((∃ s, getSortedIds ids = some s) ↔ ∀ x ∈ ids, 0 ≤ x ∧ x < (17 : Int)) ∧
    ((∃ x ∈ ids, x < 0 ∨ 17 ≤ x) → getSortedIds ids = none) ∧
    (∀ x : Int, 17 ≤ x → x ≤ 49 → x ∈ ids → getSortedIds ids = none) := by
  have hiff := getSortedIds_isSome_iff ids
  have hfail : (∃ x ∈ ids, x < 0 ∨ 17 ≤ x) → getSortedIds ids = none := by
    rintro ⟨x, hx, hbad⟩
    cases hres : getSortedIds ids with
    | none => rfl
    | some s =>
      have := hiff.1 ⟨s, hres⟩ x hx
      omega
  exact ⟨hiff, hfail, fun x h17 _ hx => hfail ⟨x, hx, Or.inr h17⟩⟩

theorem drawLoopIndices_mem (size i : Nat) (hs : 3 ≤ size) :
    ∃ l, drawLoopIndices size = some l ∧ (i ∈ l ↔ i < size - 3 ∧ i % 2 = 0) := by
  unfold drawLoopIndices
  rw [if_neg (by omega)]
  exact ⟨_, rfl, by simp [List.mem_filter]⟩

/-- With an even number `n ≥ 4` of markers every iteration of the octave loop stays
within the `n` detection indices: `i + 3 ≤ n - 1`. -/
theorem drawLoopIndices_even (n i : Nat) (hn : 4 ≤ n) (he : n % 2 = 0) (l : List Nat)
    (hl : drawLoopIndices (n + 1) = some l) (hi : i ∈ l) : i + 3 ≤ n - 1 := by
  obtain ⟨l2, hl2, hmem⟩ := drawLoopIndices_mem (n + 1) i (by omega)
  rw [hl] at hl2
  cases hl2
  have := hmem.1 hi
  omega

/-- With an odd number `n ≥ 5` of markers the octave loop has the iteration `i = n - 3`,
whose fourth read `s[i + 3]` is the trailing entry `s[n]`. -/
theorem drawLoopIndices_odd (n : Nat) (hn : 5 ≤ n) (ho : n % 2 = 1) :
    ∃ l, drawLoopIndices (n + 1) = some l ∧ n - 3 ∈ l ∧ (n - 3) + 3 = n := by
  obtain ⟨l, hl, hmem⟩ := drawLoopIndices_mem (n + 1) (n - 3) (by omega)
  exact ⟨l, hl, hmem.2 ⟨by omega, by omega⟩, by omega⟩

/-- C4 fails on the code for an odd number of markers. For the five detections
`[12, 13, 14, 15, 16]` the sorted vector is `[0, 1, 2, 3, 4, 12]`; the octave loop runs for
`i = 0` and `i = 2`, and the iteration `i = 2` reads `s[5] = 12`, the trailing minimum
id, as an index into the five-element `markerCorners`. -/
theorem draw_reads_trailing_minimum_id :
    getSortedIds [12, 13, 14, 15, 16] = some [0, 1, 2, 3, 4, 12] ∧
    drawLoopIndices ([0, 1, 2, 3, 4, 12] : List Int).length = some [0, 2] ∧
    detectMarkersAndDrawReads [12, 13, 14, 15, 16]
      = some [[some 0, some 1, some 2, some 3], [some 2, some 3, some 4, some 12]] ∧
    ¬ ((12 : Int) < (([12, 13, 14, 15, 16] : List Int).length : Int)) := by
  decide

theorem roundHalfEven_intCast (z : ℤ) : roundHalfEven (z : ℚ) = z := by
  simp [roundHalfEven]

/-- A value `M * 2 ^ k` whose significand `M` has at most `p` bits is not changed by rounding. -/
theorem roundBinary_eq_self (p : Nat) (M k : ℤ) (hM : |M| < 2 ^ p) :
    roundBinary p ((M : ℚ) * (2 : ℚ) ^ k) = (M : ℚ) * (2 : ℚ) ^ k := by
  by_cases hM0 : M = 0
  · subst hM0; simp [roundBinary]
  have h2pos : ∀ z : ℤ, (0 : ℚ) < (2 : ℚ) ^ z := fun z => zpow_pos (by norm_num) z
  have hq0 : (M : ℚ) * (2 : ℚ) ^ k ≠ 0 :=
    mul_ne_zero (by exact_mod_cast hM0) (ne_of_gt (h2pos k))
  have habs : |(M : ℚ) * (2 : ℚ) ^ k| = (|M| : ℤ) * (2 : ℚ) ^ k := by
    rw [abs_mul, abs_of_pos (h2pos k)]; push_cast; rfl
  have hqpos : (0 : ℚ) < |(M : ℚ) * (2 : ℚ) ^ k| := abs_pos.2 hq0
  -- the leading bit of the value lies below position `p + k`
  have hlt : |(M : ℚ) * (2 : ℚ) ^ k| < ((2 : ℕ) : ℚ) ^ ((p : ℤ) + k) := by
    rw [habs, zpow_add₀ (by norm_num)]
    apply mul_lt_mul_of_pos_right _ (by exact_mod_cast h2pos k)
    have : ((|M| : ℤ) : ℚ) < ((2 ^ p : ℤ) : ℚ) := by exact_mod_cast hM
    simpa using this
  have hlog : Int.log 2 |(M : ℚ) * (2 : ℚ) ^ k| < (p : ℤ) + k :=
    (Int.lt_zpow_iff_log_lt (by norm_num) hqpos).1 hlt
  obtain ⟨d, hd⟩ : ∃ d : ℕ, k - (Int.log 2 |(M : ℚ) * (2 : ℚ) ^ k| - ((p : ℤ) - 1)) = d :=
    ⟨_, (Int.toNat_of_nonneg (by omega)).symm⟩
  have hk : k = (Int.log 2 |(M : ℚ) * (2 : ℚ) ^ k| - ((p : ℤ) - 1)) + d := by omega
  have hquot : (M : ℚ) * (2 : ℚ) ^ k / (2 : ℚ) ^ (Int.log 2 |(M : ℚ) * (2 : ℚ) ^ k| - ((p : ℤ) - 1))
      = ((M * 2 ^ d : ℤ) : ℚ) := by
    rw [div_eq_iff (ne_of_gt (h2pos _))]
    conv_lhs => rw [hk]
    rw [zpow_add₀ (by norm_num)]
    push_cast
    rw [zpow_natCast]
    ring
  unfold roundBinary
  rw [if_neg hq0, hquot, roundHalfEven_intCast]
  conv_rhs => rw [hk]
  rw [zpow_add₀ (by norm_num)]
  push_cast
  rw [zpow_natCast]
  ring

theorem digitChar_eq (d : Nat) (hd : d < 10) : Nat.digitChar d = Char.ofNat (48 + d) := by
  interval_cases d <;> rfl

theorem toDigitsCore_eq_digits (fuel n : Nat) (ds : List Char) (hn : 0 < n) (hf : n < fuel) :
    Nat.toDigitsCore 10 fuel n ds
      = (Nat.digits 10 n).reverse.map (fun d => Char.ofNat (48 + d)) ++ ds := by
  induction fuel generalizing n ds with
  | zero => omega
  | succ fuel ih =>
    have hdig : Nat.digits 10 n = (n % 10) :: Nat.digits 10 (n / 10) :=
      Nat.digits_def' (by norm_num) hn
    simp only [Nat.toDigitsCore]
    rw [hdig, digitChar_eq (n % 10) (Nat.mod_lt _ (by norm_num))]
    by_cases h0 : n / 10 = 0
    · simp [h0]
    · rw [if_neg h0, ih (n / 10) _ (Nat.pos_of_ne_zero h0) (by omega)]
      simp

theorem natRepr_eq_decimalNat (n : Nat) : Nat.repr n = decimalNat n := by
  unfold decimalNat
  by_cases h0 : n = 0
  · subst h0; rfl
  · rw [if_neg h0]
    simp only [Nat.repr, Nat.toDigits, List.asString]
    rw [toDigitsCore_eq_digits (n + 1) n [] (Nat.pos_of_ne_zero h0) (by omega)]
    simp

/-- The text produced by `intToString` is the decimal numeral. -/
theorem intToString_eq_decimalText (n : Int) : intToString n = decimalText n := by
  unfold intToString decimalText
  cases n with
  | ofNat m =>
    have : ¬ (Int.ofNat m < 0) := by simp
    rw [if_neg this]
    show Nat.repr m = _
    simpa using natRepr_eq_decimalNat m
  | negSucc m =>
    have : Int.negSucc m < 0 := Int.negSucc_lt_zero m
    rw [if_pos this]
    show "-" ++ Nat.repr (m + 1) = _
    rw [natRepr_eq_decimalNat]
    rfl

theorem toDouble_eighths (m : Nat) (hm : m < 2 ^ 53) : toDouble ((m : ℚ) / 8) = (m : ℚ) / 8 := by
  have h := roundBinary_eq_self 53 (m : ℤ) (-3) (by
    rw [abs_of_nonneg (by positivity)]; exact_mod_cast hm)
  have e : ((m : ℤ) : ℚ) * (2 : ℚ) ^ (-3 : ℤ) = (m : ℚ) / 8 := by
    rw [zpow_neg]; norm_num; ring
  rw [e] at h; exact h

theorem toFloat_eighths (m : Nat) (hm : m < 2 ^ 24) : toFloat ((m : ℚ) / 8) = (m : ℚ) / 8 := by
  have h := roundBinary_eq_self 24 (m : ℤ) (-3) (by
    rw [abs_of_nonneg (by positivity)]; exact_mod_cast hm)
  have e : ((m : ℤ) : ℚ) * (2 : ℚ) ^ (-3 : ℤ) = (m : ℚ) / 8 := by
    rw [zpow_neg]; norm_num; ring
  rw [e] at h; exact h

/-- A value `m / 8` with `m < 2 ^ 24` passes unchanged through a `double` and a `float`. -/
theorem toFloat_toDouble_eighths (m : Nat) (hm : m < 2 ^ 24) :
    toFloat (toDouble ((m : ℚ) / 8)) = (m : ℚ) / 8 := by
  rw [toDouble_eighths m (lt_trans hm (by norm_num)), toFloat_eighths m hm]

theorem toFloat_toDouble_of_eighths (q : ℚ) (m : Nat) (hm : m < 2 ^ 24) (hq : q = (m : ℚ) / 8) :
    toFloat (toDouble q) = q := by
  rw [hq]; exact toFloat_toDouble_eighths m hm

theorem toDouble_natCast (m : Nat) (hm : m < 2 ^ 53) : toDouble (m : ℚ) = (m : ℚ) := by
  have h := roundBinary_eq_self 53 (m : ℤ) 0 (by
    rw [abs_of_nonneg (by positivity)]; exact_mod_cast hm)
  simpa [toDouble] using h

theorem toFloat_toDouble_natCast (q : ℚ) (m : Nat) (hm : m < 2 ^ 24) (hq : q = (m : ℚ)) :
    toFloat (toDouble q) = q := by
  have h := roundBinary_eq_self 24 (m : ℤ) 0 (by
    rw [abs_of_nonneg (by positivity)]; exact_mod_cast hm)
  rw [hq, toDouble_natCast m (lt_trans hm (by norm_num))]
  simpa [toFloat] using h

theorem wrapInt32_eq_self (x : Int) (h0 : -2 ^ 31 ≤ x) (h1 : x < 2 ^ 31) : wrapInt32 x = x := by
  unfold wrapInt32; omega

theorem log_two_eq (q : ℚ) (L : ℤ) (h1 : (2 : ℚ) ^ L ≤ q) (h2 : q < (2 : ℚ) ^ (L + 1)) :
    Int.log 2 q = L := by
  have hq : 0 < q := lt_of_lt_of_le (zpow_pos (by norm_num) L) h1
  have a : L ≤ Int.log 2 q := (Int.zpow_le_iff_le_log (by norm_num) hq).1 (by exact_mod_cast h1)
  have b : Int.log 2 q < L + 1 := (Int.lt_zpow_iff_log_lt (by norm_num) hq).1 (by exact_mod_cast h2)
  omega

/-- The value `16777217 / 8` needs 25 bits; it lies halfway between two `float`s and
rounds to the even one, `2097152`. -/
theorem toFloat_tie_example : toFloat ((16777217 : ℚ) / 8) = 2097152 := by
  have hlog : Int.log 2 |(16777217 : ℚ) / 8| = 21 := by
    rw [abs_of_pos (by norm_num)]
    apply log_two_eq <;> norm_num
  have hfloor : ⌊(16777217 : ℚ) / 2⌋ = 8388608 := by
    rw [Int.floor_eq_iff]; constructor <;> norm_num
  have hquot : (16777217 : ℚ) / 8 / (2 : ℚ) ^ ((21 : ℤ) - (((24 : ℕ) : ℤ) - 1)) = 16777217 / 2 := by
    norm_num
  have hround : roundHalfEven ((16777217 : ℚ) / 2) = 8388608 := by
    unfold roundHalfEven
    rw [hfloor]
    norm_num
  unfold toFloat roundBinary
  rw [if_neg (by norm_num), hlog, hquot, hround]
  norm_num

/-- The texts of the eight `putText` calls, for every input. -/
theorem drawNoteNames_texts (cols rows : Nat) (n : Int) :
    (drawNoteNames cols rows n).map (fun p => p.text) =
      ["C" ++ intToString n, "D" ++ intToString n, "E" ++ intToString n, "F" ++ intToString n,
       "G" ++ intToString n, "A" ++ intToString n, "H" ++ intToString n,
       "C" ++ intToString (wrapInt32 (n + 1))] := by
  have hnotes : "CDEFGAHC".toList = ['C', 'D', 'E', 'F', 'G', 'A', 'H', 'C'] := rfl
  have hC : 'C'.toString = "C" := rfl
  have hD : 'D'.toString = "D" := rfl
  have hE : 'E'.toString = "E" := rfl
  have hF : 'F'.toString = "F" := rfl
  have hG : 'G'.toString = "G" := rfl
  have hA : 'A'.toString = "A" := rfl
  have hH : 'H'.toString = "H" := rfl
  simp only [drawNoteNames, hnotes, List.foldl, noteStep, hC, hD, hE, hF, hG, hA, hH]
  simp

/-- The `x` coordinate of the first label, for every input. -/
theorem drawNoteNames_first_x (cols rows : Nat) (n : Int) :
    ((drawNoteNames cols rows n).map (fun p => p.org.x))[0]?
      = some (toFloat (toDouble (toDouble ((cols / 8 : Nat) : ℚ) / 8))) := by
  have hnotes : "CDEFGAHC".toList = ['C', 'D', 'E', 'F', 'G', 'A', 'H', 'C'] := rfl
  simp only [drawNoteNames, hnotes, List.foldl, noteStep]
  simp

/-- C5 as stated fails at both ends of its range. For the octave number `2147483647` the
increment of the 32-bit `octaveNumber` wraps, and the last label is `C-2147483648`, not
`C2147483648`. For an overlay of `134217736` columns `horizontalEighth / 8` is
`16777217 / 8`, which no `float` holds: the first label is drawn at `x = 2097152`. -/
theorem drawNoteNames_labels_counterexample :
    (((drawNoteNames 640 480 2147483647).map (fun p => p.text))[7]? = some "C-2147483648" ∧
      "C-2147483648" ≠ "C" ++ decimalText (2147483647 + 1)) ∧
    (((drawNoteNames 134217736 8 0).map (fun p => p.org.x))[0]? = some 2097152 ∧
      (2097152 : ℚ) ≠ ((134217736 / 8 : Nat) : ℚ) / 8 + 0 * ((134217736 / 8 : Nat) : ℚ)) := by
  refine ⟨⟨?_, ?_⟩, ?_, ?_⟩
  · rw [drawNoteNames_texts]
    have hw : wrapInt32 (2147483647 + 1) = -2147483648 := by decide
    have hs : intToString (-2147483648) = "-2147483648" := by decide
    rw [hw, hs]
    decide
  · rw [← intToString_eq_decimalText]
    decide
  · rw [drawNoteNames_first_x]
    have hn : ((134217736 / 8 : Nat) : ℚ) = ((16777217 : Nat) : ℚ) := by norm_num
    rw [hn, toDouble_natCast 16777217 (by norm_num)]
    have hd := toDouble_eighths 16777217 (by norm_num)
    have hq : (((16777217 : Nat) : ℚ) / 8) = (16777217 : ℚ) / 8 := by norm_num
    rw [hd, hq, toFloat_tie_example]
  · norm_num

/-- C5, amended: for every octave number `n` whose successor is representable as an `int`
and every overlay size, `drawNoteNames` draws exactly eight labels, with the texts
`C n, D n, E n, F n, G n, A n, H n, C (n+1)` in this order (numbers in decimal, only the
final C carries the next octave number); for an overlay with `cols < 2 ^ 21` and
`rows < 2 ^ 24` the `k`-th label is at `x = horizontalEighth / 8 + k * horizontalEighth`,
`y = rows - verticalEighth`, where `horizontalEighth = cols div 8` and
`verticalEighth = rows div 8`. -/
theorem drawNoteNames_labels (cols rows : Nat) (n : Int) (hmin : -2 ^ 31 ≤ n)
    (hmax : n + 1 < 2 ^ 31) :
    (drawNoteNames cols rows n).map (fun p => p.text) =
      ["C" ++ decimalText n, "D" ++ decimalText n, "E" ++ decimalText n, "F" ++ decimalText n,
       "G" ++ decimalText n, "A" ++ decimalText n, "H" ++ decimalText n,
       "C" ++ decimalText (n + 1)] ∧
    (cols < 2 ^ 21 → rows < 2 ^ 24 →
      (drawNoteNames cols rows n).map (fun p => p.org) =
        [⟨((cols / 8 : Nat) : ℚ) / 8 + 0 * ((cols / 8 : Nat) : ℚ), (rows : ℚ) - ((rows / 8 : Nat) : ℚ)⟩,
         ⟨((cols / 8 : Nat) : ℚ) / 8 + 1 * ((cols / 8 : Nat) : ℚ), (rows : ℚ) - ((rows / 8 : Nat) : ℚ)⟩,
         ⟨((cols / 8 : Nat) : ℚ) / 8 + 2 * ((cols / 8 : Nat) : ℚ), (rows : ℚ) - ((rows / 8 : Nat) : ℚ)⟩,
         ⟨((cols / 8 : Nat) : ℚ) / 8 + 3 * ((cols / 8 : Nat) : ℚ), (rows : ℚ) - ((rows / 8 : Nat) : ℚ)⟩,
         ⟨((cols / 8 : Nat) : ℚ) / 8 + 4 * ((cols / 8 : Nat) : ℚ), (rows : ℚ) - ((rows / 8 : Nat) : ℚ)⟩,
         ⟨((cols / 8 : Nat) : ℚ) / 8 + 5 * ((cols / 8 : Nat) : ℚ), (rows : ℚ) - ((rows / 8 : Nat) : ℚ)⟩,
         ⟨((cols / 8 : Nat) : ℚ) / 8 + 6 * ((cols / 8 : Nat) : ℚ), (rows : ℚ) - ((rows / 8 : Nat) : ℚ)⟩,
         ⟨((cols / 8 : Nat) : ℚ) / 8 + 7 * ((cols / 8 : Nat) : ℚ), (rows : ℚ) - ((rows / 8 : Nat) : ℚ)⟩]) := by
  constructor
  · rw [drawNoteNames_texts, wrapInt32_eq_self _ (by omega) hmax]
    simp only [intToString_eq_decimalText]
  intro hcols hrows
  have hnotes : "CDEFGAHC".toList = ['C', 'D', 'E', 'F', 'G', 'A', 'H', 'C'] := rfl
  have hh : cols / 8 < 2 ^ 18 := by omega
  have hv : rows / 8 ≤ rows := Nat.div_le_self _ _
  have hdh : toDouble ((cols / 8 : Nat) : ℚ) = ((cols / 8 : Nat) : ℚ) :=
    toDouble_natCast _ (by omega)
  have hdv : toDouble ((rows / 8 : Nat) : ℚ) = ((rows / 8 : Nat) : ℚ) :=
    toDouble_natCast _ (by omega)
  have hy : toFloat (toDouble ((rows : ℚ) - ((rows / 8 : Nat) : ℚ)))
      = (rows : ℚ) - ((rows / 8 : Nat) : ℚ) :=
    toFloat_toDouble_natCast _ (rows - rows / 8) (by omega) (by rw [Nat.cast_sub hv])
  have e0 : toFloat (toDouble (((cols / 8 : Nat) : ℚ) / 8)) = ((cols / 8 : Nat) : ℚ) / 8 :=
    toFloat_toDouble_of_eighths _ (cols / 8) (by omega) rfl
  have e1 : toFloat (toDouble (((cols / 8 : Nat) : ℚ) / 8 + ((cols / 8 : Nat) : ℚ)))
      = ((cols / 8 : Nat) : ℚ) / 8 + ((cols / 8 : Nat) : ℚ) :=
    toFloat_toDouble_of_eighths _ (9 * (cols / 8)) (by omega) (by push_cast; ring)
  have e2 : toFloat (toDouble (((cols / 8 : Nat) : ℚ) / 8 + ((cols / 8 : Nat) : ℚ)
        + ((cols / 8 : Nat) : ℚ)))
      = ((cols / 8 : Nat) : ℚ) / 8 + ((cols / 8 : Nat) : ℚ) + ((cols / 8 : Nat) : ℚ) :=
    toFloat_toDouble_of_eighths _ (17 * (cols / 8)) (by omega) (by push_cast; ring)
  have e3 : toFloat (toDouble (((cols / 8 : Nat) : ℚ) / 8 + ((cols / 8 : Nat) : ℚ)
        + ((cols / 8 : Nat) : ℚ) + ((cols / 8 : Nat) : ℚ)))
      = ((cols / 8 : Nat) : ℚ) / 8 + ((cols / 8 : Nat) : ℚ) + ((cols / 8 : Nat) : ℚ)
        + ((cols / 8 : Nat) : ℚ) :=
    toFloat_toDouble_of_eighths _ (25 * (cols / 8)) (by omega) (by push_cast; ring)
  have e4 : toFloat (toDouble (((cols / 8 : Nat) : ℚ) / 8 + ((cols / 8 : Nat) : ℚ)
        + ((cols / 8 : Nat) : ℚ) + ((cols / 8 : Nat) : ℚ) + ((cols / 8 : Nat) : ℚ)))
      = ((cols / 8 : Nat) : ℚ) / 8 + ((cols / 8 : Nat) : ℚ) + ((cols / 8 : Nat) : ℚ)
        + ((cols / 8 : Nat) : ℚ) + ((cols / 8 : Nat) : ℚ) :=
    toFloat_toDouble_of_eighths _ (33 * (cols / 8)) (by omega) (by push_cast; ring)
  have e5 : toFloat (toDouble (((cols / 8 : Nat) : ℚ) / 8 + ((cols / 8 : Nat) : ℚ)
        + ((cols / 8 : Nat) : ℚ) + ((cols / 8 : Nat) : ℚ) + ((cols / 8 : Nat) : ℚ)
        + ((cols / 8 : Nat) : ℚ)))
      = ((cols / 8 : Nat) : ℚ) / 8 + ((cols / 8 : Nat) : ℚ) + ((cols / 8 : Nat) : ℚ)
        + ((cols / 8 : Nat) : ℚ) + ((cols / 8 : Nat) : ℚ) + ((cols / 8 : Nat) : ℚ) :=
    toFloat_toDouble_of_eighths _ (41 * (cols / 8)) (by omega) (by push_cast; ring)
  have e6 : toFloat (toDouble (((cols / 8 : Nat) : ℚ) / 8 + ((cols / 8 : Nat) : ℚ)
        + ((cols / 8 : Nat) : ℚ) + ((cols / 8 : Nat) : ℚ) + ((cols / 8 : Nat) : ℚ)
        + ((cols / 8 : Nat) : ℚ) + ((cols / 8 : Nat) : ℚ)))
      = ((cols / 8 : Nat) : ℚ) / 8 + ((cols / 8 : Nat) : ℚ) + ((cols / 8 : Nat) : ℚ)
        + ((cols / 8 : Nat) : ℚ) + ((cols / 8 : Nat) : ℚ) + ((cols / 8 : Nat) : ℚ)
        + ((cols / 8 : Nat) : ℚ) :=
    toFloat_toDouble_of_eighths _ (49 * (cols / 8)) (by omega) (by push_cast; ring)
  have e7 : toFloat (toDouble (((cols / 8 : Nat) : ℚ) / 8 + ((cols / 8 : Nat) : ℚ)
        + ((cols / 8 : Nat) : ℚ) + ((cols / 8 : Nat) : ℚ) + ((cols / 8 : Nat) : ℚ)
        + ((cols / 8 : Nat) : ℚ) + ((cols / 8 : Nat) : ℚ) + ((cols / 8 : Nat) : ℚ)))
      = ((cols / 8 : Nat) : ℚ) / 8 + ((cols / 8 : Nat) : ℚ) + ((cols / 8 : Nat) : ℚ)
        + ((cols / 8 : Nat) : ℚ) + ((cols / 8 : Nat) : ℚ) + ((cols / 8 : Nat) : ℚ)
        + ((cols / 8 : Nat) : ℚ) + ((cols / 8 : Nat) : ℚ) :=
    toFloat_toDouble_of_eighths _ (57 * (cols / 8)) (by omega) (by push_cast; ring)
  simp only [drawNoteNames, hnotes, List.foldl, noteStep, hdh, hdv, hy, e0, e1, e2, e3, e4, e5,
    e6, e7]
  simp
  refine ⟨?_, ?_, ?_, ?_, ?_, ?_⟩ <;> ring

/-- C5 amended, for an overlay of 640 by 480 pixels and the octave number 3. -/
theorem drawNoteNames_labels_witness :
    (-2 ^ 31 : Int) ≤ 3 ∧ (3 : Int) + 1 < 2 ^ 31 ∧
    (drawNoteNames 640 480 3).map (fun p => p.text) =
      ["C" ++ decimalText 3, "D" ++ decimalText 3, "E" ++ decimalText 3, "F" ++ decimalText 3,
       "G" ++ decimalText 3, "A" ++ decimalText 3, "H" ++ decimalText 3,
       "C" ++ decimalText (3 + 1)] ∧
    ((640 : Nat) < 2 ^ 21 → (480 : Nat) < 2 ^ 24 →
      (drawNoteNames 640 480 3).map (fun p => p.org) =
        [⟨((640 / 8 : Nat) : ℚ) / 8 + 0 * ((640 / 8 : Nat) : ℚ), ((480 : Nat) : ℚ) - ((480 / 8 : Nat) : ℚ)⟩,
         ⟨((640 / 8 : Nat) : ℚ) / 8 + 1 * ((640 / 8 : Nat) : ℚ), ((480 : Nat) : ℚ) - ((480 / 8 : Nat) : ℚ)⟩,
         ⟨((640 / 8 : Nat) : ℚ) / 8 + 2 * ((640 / 8 : Nat) : ℚ), ((480 : Nat) : ℚ) - ((480 / 8 : Nat) : ℚ)⟩,
         ⟨((640 / 8 : Nat) : ℚ) / 8 + 3 * ((640 / 8 : Nat) : ℚ), ((480 : Nat) : ℚ) - ((480 / 8 : Nat) : ℚ)⟩,
         ⟨((640 / 8 : Nat) : ℚ) / 8 + 4 * ((640 / 8 : Nat) : ℚ), ((480 : Nat) : ℚ) - ((480 / 8 : Nat) : ℚ)⟩,
         ⟨((640 / 8 : Nat) : ℚ) / 8 + 5 * ((640 / 8 : Nat) : ℚ), ((480 : Nat) : ℚ) - ((480 / 8 : Nat) : ℚ)⟩,
         ⟨((640 / 8 : Nat) : ℚ) / 8 + 6 * ((640 / 8 : Nat) : ℚ), ((480 : Nat) : ℚ) - ((480 / 8 : Nat) : ℚ)⟩,
         ⟨((640 / 8 : Nat) : ℚ) / 8 + 7 * ((640 / 8 : Nat) : ℚ), ((480 : Nat) : ℚ) - ((480 / 8 : Nat) : ℚ)⟩]) ∧
    (640 : Nat) < 2 ^ 21 ∧ (480 : Nat) < 2 ^ 24 :=
  ⟨by decide, by decide, (drawNoteNames_labels 640 480 3 (by decide) (by decide)).1,
    (drawNoteNames_labels 640 480 3 (by decide) (by decide)).2, by decide, by decide⟩

theorem getXCoordOfNote_eq (note : OctaveNote) (h : ℚ) :
    getXCoordOfNote note h = (note.toNat : ℚ) * h := by
  cases note <;> simp [getXCoordOfNote, OctaveNote.toNat] <;> ring

theorem toNat_le_seven (note : OctaveNote) : note.toNat ≤ 7 := by
  cases note <;> simp [OctaveNote.toNat]

theorem chordLines_on_grid (y : ℚ) (n0 n1 n2 : OctaveNote) (h : ℚ) (j : Fin 3) :
    (∃ k : Nat, k ≤ 7 ∧ ((chordLines y n0 n1 n2 h).lineStarts j).x = (k : ℚ) * h) ∧
    ((chordLines y n0 n1 n2 h).lineEnds j).x = ((chordLines y n0 n1 n2 h).lineStarts j).x + h ∧
    ((chordLines y n0 n1 n2 h).lineStarts j).y = y ∧
    ((chordLines y n0 n1 n2 h).lineEnds j).y = y := by
  fin_cases j
  · exact ⟨⟨n0.toNat, toNat_le_seven n0, by simp [chordLines, chordLine, getXCoordOfNote_eq]⟩,
      by simp [chordLines, chordLine], by simp [chordLines, chordLine],
      by simp [chordLines, chordLine]⟩
  · exact ⟨⟨n1.toNat, toNat_le_seven n1, by simp [chordLines, chordLine, getXCoordOfNote_eq]⟩,
      by simp [chordLines, chordLine], by simp [chordLines, chordLine],
      by simp [chordLines, chordLine]⟩
  · exact ⟨⟨n2.toNat, toNat_le_seven n2, by simp [chordLines, chordLine, getXCoordOfNote_eq]⟩,
      by simp [chordLines, chordLine], by simp [chordLines, chordLine],
      by simp [chordLines, chordLine]⟩

/-- C6: for every chord `C .. H` (index `r` in `0 .. 6`) and all `h`, `v`, each of the three
segments of `getChordLinePoints` starts at `x = k * h` for some `k` in `0 .. 7`, ends at
`x + h`, and has both ends at height `v * (5.5 + 0.1 * r)` (exact arithmetic). -/
theorem getChordLinePoints_on_grid (r : Nat) (hr : r < 7) (h v : ℚ) (j : Fin 3) :
    (∃ k : Nat, k ≤ 7 ∧
      ((getChordLinePoints (OctaveNote.ofIndex r) h v).lineStarts j).x = (k : ℚ) * h) ∧
    ((getChordLinePoints (OctaveNote.ofIndex r) h v).lineEnds j).x
      = ((getChordLinePoints (OctaveNote.ofIndex r) h v).lineStarts j).x + h ∧
    ((getChordLinePoints (OctaveNote.ofIndex r) h v).lineStarts j).y = v * (5.5 + 0.1 * (r : ℚ)) ∧
    ((getChordLinePoints (OctaveNote.ofIndex r) h v).lineEnds j).y = v * (5.5 + 0.1 * (r : ℚ)) := by
  interval_cases r
  · have hy : v * (5.5 + 0.1 * ((0 : Nat) : ℚ)) = v * 5.5 := by norm_num
    rw [hy]; exact chordLines_on_grid _ _ _ _ h j
  · have hy : v * (5.5 + 0.1 * ((1 : Nat) : ℚ)) = v * 5.6 := by norm_num
    rw [hy]; exact chordLines_on_grid _ _ _ _ h j
  · have hy : v * (5.5 + 0.1 * ((2 : Nat) : ℚ)) = v * 5.7 := by norm_num
    rw [hy]; exact chordLines_on_grid _ _ _ _ h j
  · have hy : v * (5.5 + 0.1 * ((3 : Nat) : ℚ)) = v * 5.8 := by norm_num
    rw [hy]; exact chordLines_on_grid _ _ _ _ h j
  · have hy : v * (5.5 + 0.1 * ((4 : Nat) : ℚ)) = v * 5.9 := by norm_num
    rw [hy]; exact chordLines_on_grid _ _ _ _ h j
  · have hy : v * (5.5 + 0.1 * ((5 : Nat) : ℚ)) = v * 6.0 := by norm_num
    rw [hy]; exact chordLines_on_grid _ _ _ _ h j
  · have hy : v * (5.5 + 0.1 * ((6 : Nat) : ℚ)) = v * 6.1 := by norm_num
    rw [hy]; exact chordLines_on_grid _ _ _ _ h j

/-- C6, for the chord F (index 3) on a grid of 80 by 60, segment 2. -/
theorem getChordLinePoints_on_grid_witness :
    (3 : Nat) < 7 ∧
    (∃ k : Nat, k ≤ 7 ∧
      ((getChordLinePoints (OctaveNote.ofIndex 3) 80 60).lineStarts 2).x = (k : ℚ) * 80) ∧
    ((getChordLinePoints (OctaveNote.ofIndex 3) 80 60).lineEnds 2).x
      = ((getChordLinePoints (OctaveNote.ofIndex 3) 80 60).lineStarts 2).x + 80 ∧
    ((getChordLinePoints (OctaveNote.ofIndex 3) 80 60).lineStarts 2).y
      = 60 * (5.5 + 0.1 * ((3 : Nat) : ℚ)) ∧
    ((getChordLinePoints (OctaveNote.ofIndex 3) 80 60).lineEnds 2).y
      = 60 * (5.5 + 0.1 * ((3 : Nat) : ℚ)) :=
  ⟨by decide, getChordLinePoints_on_grid 3 (by decide) 80 60 2⟩

/-- C7: for a marker id `id ≥ 0` with `id + 3` representable as an `int`,
`getOctaveNumber id keysCount` is `(id + 3) div 2` for every `keysCount` other than 88
(49, 61 and 76 among them) and `(id + 1) div 2` for `keysCount = 88`. -/
theorem getOctaveNumber_value (id keysCount : Int) (h0 : 0 ≤ id) (hmax : id + 3 < 2 ^ 31) :
    (keysCount ≠ 88 → getOctaveNumber id keysCount = (id + 3) / 2) ∧
    (keysCount = 88 → getOctaveNumber id keysCount = (id + 1) / 2) := by
  have h3 : wrapInt32 (id + 3) = id + 3 := by unfold wrapInt32; omega
  have h1 : wrapInt32 (id + 1) = id + 1 := by unfold wrapInt32; omega
  have hdiv : ∀ a : Int, 0 ≤ a → Int.tdiv a 2 = a / 2 :=
    fun a ha => Int.tdiv_eq_ediv ha (by decide)
  constructor
  · intro hk
    unfold getOctaveNumber
    rw [h3, h1, hdiv _ (by omega)]
    simp [hk]
  · intro hk
    subst hk
    unfold getOctaveNumber
    rw [h3, h1, hdiv (id + 1) (by omega)]
    simp

/-- C7, for the marker id 4. -/
theorem getOctaveNumber_value_witness :
    (0 : Int) ≤ 4 ∧ (4 : Int) + 3 < 2 ^ 31 ∧
    ((49 : Int) ≠ 88 → getOctaveNumber 4 49 = (4 + 3) / 2) ∧
    ((49 : Int) = 88 → getOctaveNumber 4 49 = (4 + 1) / 2) :=
  ⟨by decide, by decide, getOctaveNumber_value 4 49 (by decide) (by decide)⟩

theorem invertByte_max : invertByte 255 = 0 := by decide

theorem invertByte_zero : invertByte 0 = 255 := by decide

theorem saturateAdd_zero_left (a : Fin 256) : saturateAdd 0 a = a := by
  apply Fin.ext
  simp only [saturateAdd, Fin.val_zero, Nat.zero_add]
  omega

theorem saturateAdd_zero_right (a : Fin 256) : saturateAdd a 0 = a := by
  apply Fin.ext
  simp only [saturateAdd, Fin.val_zero, Nat.add_zero]
  omega

/-- C8: for one octave composited by `draw` with freshly allocated result buffers, at
every pixel position the output pixel is the warped-overlay pixel where the grey value
of the warped overlay is greater than 0 (mask 255) and the camera pixel elsewhere
(mask 0); the mask and its inverse are complementary, so one of the two summands of
`result1 + result2` is zero at every pixel. -/
theorem compositeOctave_merges_by_mask (gray : Pixel → Fin 256) (mRgb overlayWarped : Image)
    (r c : Nat) :
    (0 < gray (overlayWarped r c) →
      (compositeOctave gray mRgb overlayWarped).mask r c = 255 ∧
      (compositeOctave gray mRgb overlayWarped).mRgb r c = overlayWarped r c) ∧
    (¬ 0 < gray (overlayWarped r c) →
      (compositeOctave gray mRgb overlayWarped).mask r c = 0 ∧
      (compositeOctave gray mRgb overlayWarped).mRgb r c = mRgb r c) ∧
    (((compositeOctave gray mRgb overlayWarped).mask r c = 255 ∧
        (compositeOctave gray mRgb overlayWarped).maskInv r c = 0) ∨
      ((compositeOctave gray mRgb overlayWarped).mask r c = 0 ∧
        (compositeOctave gray mRgb overlayWarped).maskInv r c = 255)) ∧
    ((compositeOctave gray mRgb overlayWarped).result1 r c = Pixel.zero ∨
      (compositeOctave gray mRgb overlayWarped).result2 r c = Pixel.zero) := by
  by_cases hg : 0 < gray (overlayWarped r c)
  · have hmask : (compositeOctave gray mRgb overlayWarped).mask r c = 255 := by
      simp [compositeOctave, threshold, cvtColor, hg]
    have hinv : (compositeOctave gray mRgb overlayWarped).maskInv r c = 0 := by
      simp [compositeOctave, threshold, cvtColor, bitwise_not, invertByte_max, invertByte_zero, hg]
    have hr1 : (compositeOctave gray mRgb overlayWarped).result1 r c = Pixel.zero := by
      simp [compositeOctave, threshold, cvtColor, bitwise_not, copyToFresh, invertByte_max, invertByte_zero, hg]
    have hr2 : (compositeOctave gray mRgb overlayWarped).result2 r c = overlayWarped r c := by
      simp [compositeOctave, threshold, cvtColor, copyToFresh, hg]
    have hout : (compositeOctave gray mRgb overlayWarped).mRgb r c = overlayWarped r c := by
      have : (compositeOctave gray mRgb overlayWarped).mRgb r c
          = matAdd (compositeOctave gray mRgb overlayWarped).result1
              (compositeOctave gray mRgb overlayWarped).result2 r c := rfl
      rw [this]
      simp only [matAdd, hr1, hr2, Pixel.zero, saturateAdd_zero_left]
    exact ⟨fun _ => ⟨hmask, hout⟩, fun h => absurd hg h, Or.inl ⟨hmask, hinv⟩, Or.inl hr1⟩
  · have hmask : (compositeOctave gray mRgb overlayWarped).mask r c = 0 := by
      simp [compositeOctave, threshold, cvtColor, hg]
    have hinv : (compositeOctave gray mRgb overlayWarped).maskInv r c = 255 := by
      simp [compositeOctave, threshold, cvtColor, bitwise_not, invertByte_max, invertByte_zero, hg]
    have hr1 : (compositeOctave gray mRgb overlayWarped).result1 r c = mRgb r c := by
      simp [compositeOctave, threshold, cvtColor, bitwise_not, copyToFresh, invertByte_max, invertByte_zero, hg]
    have hr2 : (compositeOctave gray mRgb overlayWarped).result2 r c = Pixel.zero := by
      simp [compositeOctave, threshold, cvtColor, copyToFresh, hg]
    have hout : (compositeOctave gray mRgb overlayWarped).mRgb r c = mRgb r c := by
      have : (compositeOctave gray mRgb overlayWarped).mRgb r c
          = matAdd (compositeOctave gray mRgb overlayWarped).result1
              (compositeOctave gray mRgb overlayWarped).result2 r c := rfl
      rw [this]
      simp only [matAdd, hr1, hr2, Pixel.zero, saturateAdd_zero_right]
    exact ⟨fun h => absurd h hg, fun _ => ⟨hmask, hout⟩, Or.inr ⟨hmask, hinv⟩, Or.inr hr2⟩

end CardboardKeyboard
